import Mathlib

/-!
Shallow embedding of the Go clean-architecture user-CRUD service
(`cleanarch`): the domain entity (`internal/domain/user.go`), the in-memory
store (`internal/repository/memory/user_repository.go`), the application
service (`internal/usecase/user_service.go`) and the HTTP handlers
(`internal/adapter/http`, wired in `internal/app/router.go`).

Modelling conventions:
* Go `int64` values are `Int` with explicit two's-complement wrap
  (`wrap64`) exactly where the source performs 64-bit arithmetic
  (`atomic.AddInt64`).
* `time.Time` instants are `Int` (an abstract clock reading); each mutating
  operation takes the value `time.Now().UTC()` returned to it as an explicit
  `now` argument.
* The Go map `map[int64]*domain.User` is an association list; lookup,
  insert-or-replace and erase model Go map indexing, assignment and
  `delete`.
* Fallible operations return `Except String` carrying the exact
  `errors.New` message of the source.
* Pointer identity matters only for the aliasing/isolation claims; those are
  settled against a second, pointer-level embedding (`PtrRepo`) in which the
  map stores heap addresses and every `&copy` in the source is an explicit
  heap allocation.
-/

/-! ## Association lists (the Go map) -/

/-- Go map indexing `m[k]`: the value stored at `k`, if any. -/
def alookup {κ α : Type} [DecidableEq κ] : List (κ × α) → κ → Option α
  | [], _ => none
  | (k, v) :: m, k' => if k' = k then some v else alookup m k'

/-- Go map assignment `m[k] = v`: replace the entry at `k`, or add one. -/
def ainsert {κ α : Type} [DecidableEq κ] : List (κ × α) → κ → α → List (κ × α)
  | [], k, v => [(k, v)]
  | (k', v') :: m, k, v => if k' = k then (k, v) :: m else (k', v') :: ainsert m k v

/-- Go `delete(m, k)`: remove the entry keyed by `k`. -/
def aerase {κ α : Type} [DecidableEq κ] : List (κ × α) → κ → List (κ × α)
  | [], _ => []
  | (k', v') :: m, k => if k' = k then aerase m k else (k', v') :: aerase m k

theorem alookup_ainsert {κ α : Type} [DecidableEq κ] (m : List (κ × α)) (k : κ) (v : α) :
    alookup (ainsert m k v) k = some v := by
  induction m with
  | nil => simp [ainsert, alookup]
  | cons p m ih =>
    obtain ⟨k', v'⟩ := p
    by_cases h : k' = k
    · subst h; simp [ainsert, alookup]
    · simp [ainsert, alookup, h, Ne.symm h, ih]

theorem alookup_ainsert_ne {κ α : Type} [DecidableEq κ] (m : List (κ × α)) (k k' : κ) (v : α)
    (h : k' ≠ k) : alookup (ainsert m k v) k' = alookup m k' := by
  induction m with
  | nil => simp [ainsert, alookup, h]
  | cons p m ih =>
    obtain ⟨k₀, v₀⟩ := p
    by_cases h₀ : k₀ = k
    · subst h₀
      by_cases h₁ : k' = k₀
      · exact absurd h₁ h
      · simp [ainsert, alookup, h₁]
    · by_cases h₁ : k' = k₀
      · subst h₁; simp [ainsert, alookup, h₀]
      · simp [ainsert, alookup, h₀, h₁, ih]

theorem alookup_aerase {κ α : Type} [DecidableEq κ] (m : List (κ × α)) (k : κ) :
    alookup (aerase m k) k = none := by
  induction m with
  | nil => simp [aerase, alookup]
  | cons p m ih =>
    obtain ⟨k', v'⟩ := p
    by_cases h : k' = k
    · simpa [aerase, h] using ih
    · simp [aerase, h, alookup, Ne.symm h, ih]

theorem alookup_aerase_ne {κ α : Type} [DecidableEq κ] (m : List (κ × α)) (k k' : κ)
    (h : k' ≠ k) : alookup (aerase m k) k' = alookup m k' := by
  induction m with
  | nil => simp [aerase, alookup]
  | cons p m ih =>
    obtain ⟨k₀, v₀⟩ := p
    by_cases h₀ : k₀ = k
    · subst h₀; simp [aerase, alookup, h, ih]
    · by_cases h₁ : k' = k₀
      · subst h₁; simp [aerase, alookup, h₀]
      · simp [aerase, alookup, h₀, h₁, ih]

theorem aerase_of_alookup_none {κ α : Type} [DecidableEq κ] (m : List (κ × α)) (k : κ)
    (h : alookup m k = none) : aerase m k = m := by
  induction m with
  | nil => rfl
  | cons p m ih =>
    obtain ⟨k', v'⟩ := p
    by_cases h₀ : k = k'
    · subst h₀; simp [alookup] at h
    · simp only [alookup, if_neg h₀] at h
      simp [aerase, Ne.symm h₀, ih h]

theorem mem_keys_of_alookup_some {κ α : Type} [DecidableEq κ] (m : List (κ × α)) (k : κ)
    (v : α) (h : alookup m k = some v) : k ∈ m.map Prod.fst := by
  induction m with
  | nil => simp [alookup] at h
  | cons p m ih =>
    obtain ⟨k₀, v₀⟩ := p
    by_cases h₀ : k = k₀
    · subst h₀; simp
    · simp only [alookup, if_neg h₀] at h
      simp [ih h]

theorem keys_ainsert_subset {κ α : Type} [DecidableEq κ] (m : List (κ × α)) (k k' : κ) (v : α)
    (h : k' ∈ (ainsert m k v).map Prod.fst) : k' = k ∨ k' ∈ m.map Prod.fst := by
  induction m with
  | nil => simp [ainsert] at h; simp [h]
  | cons p m ih =>
    obtain ⟨k₀, v₀⟩ := p
    by_cases h₀ : k₀ = k
    · subst h₀
      rcases (by simpa [ainsert] using h : k' = k₀ ∨ k' ∈ m.map Prod.fst) with h₁ | h₁
      · exact Or.inl h₁
      · exact Or.inr (by simp [h₁])
    · rcases (by simpa [ainsert, h₀] using h : k' = k₀ ∨ k' ∈ (ainsert m k v).map Prod.fst)
        with h₁ | h₁
      · exact Or.inr (by simp [h₁])
      · rcases ih h₁ with h₂ | h₂
        · exact Or.inl h₂
        · exact Or.inr (by simp [h₂])

theorem keys_aerase_subset {κ α : Type} [DecidableEq κ] (m : List (κ × α)) (k k' : κ)
    (h : k' ∈ (aerase m k).map Prod.fst) : k' ∈ m.map Prod.fst := by
  induction m with
  | nil => simp [aerase] at h
  | cons p m ih =>
    obtain ⟨k₀, v₀⟩ := p
    by_cases h₀ : k₀ = k
    · simp only [aerase, if_pos h₀] at h
      simp [ih h]
    · rcases (by simpa [aerase, h₀] using h : k' = k₀ ∨ k' ∈ (aerase m k).map Prod.fst)
        with h₁ | h₁
      · simp [h₁]
      · simp [ih h₁]

/-! ## Entity model — `internal/domain/user.go` -/

/-- `domain.User`: the core entity record. `ID` is a Go `int64`; `CreatedAt`
and `UpdatedAt` are `time.Time` instants modelled as abstract clock
readings. -/
structure User where
  ID : Int
  Name : String
  Email : String
  CreatedAt : Int
  UpdatedAt : Int
deriving DecidableEq, Repr

/-- The zero `domain.User` (Go zero value: `&domain.User{Name: n, Email: e}`
leaves `ID` and the timestamps at their zero values). -/
def User.zero : User := ⟨0, "", "", 0, 0⟩

/-! ## 64-bit wrap — `atomic.AddInt64` semantics -/

/-- Two's-complement wrap of an unbounded integer into `int64` range,
the result of Go signed 64-bit addition overflow. -/
def wrap64 (n : Int) : Int := (n + 2 ^ 63) % 2 ^ 64 - 2 ^ 63

theorem wrap64_eq_self (n : Int) (hlo : -(2 ^ 63) ≤ n) (hhi : n < 2 ^ 63) :
    wrap64 n = n := by
  unfold wrap64
  omega

/-! ## Store — `internal/repository/memory/user_repository.go`, value level -/

/-- `InMemoryUserRepository`: the identifier counter and the keyed
collection, at value level (each map entry holds the pointed-to record's
value). The `sync.RWMutex` serialises the operations; the sequential
functions below are the linearised behaviour. -/
structure InMemoryUserRepository where
  autoIncID : Int
  users : List (Int × User)
deriving DecidableEq, Repr

namespace InMemoryUserRepository

/-- `NewInMemoryUserRepository()`. -/
def new : InMemoryUserRepository := ⟨0, []⟩

/-- `Create`: nil input fails with "nil user"; otherwise allocate
`atomic.AddInt64(&r.autoIncID, 1)`, overwrite `ID`/`CreatedAt`/`UpdatedAt`
on a copy of the input, store it keyed by the new id and return it. -/
def Create (r : InMemoryUserRepository) (user : Option User) (now : Int) :
    Except String User × InMemoryUserRepository :=
  match user with
  | none => (.error "nil user", r)
  | some u =>
    let id := wrap64 (r.autoIncID + 1)
    let copy : User := { u with ID := id, CreatedAt := now, UpdatedAt := now }
    (.ok copy, { autoIncID := id, users := ainsert r.users id copy })

/-- `GetByID`: look the id up under the read lock and return a copy of the
stored record, or fail with "user not found". Takes no lock-side state:
reading never changes the repository. -/
def GetByID (r : InMemoryUserRepository) (id : Int) : Except String User :=
  match alookup r.users id with
  | none => .error "user not found"
  | some u => .ok u

/-- `List`: copy every currently stored record, in map iteration order;
never fails. -/
def ListAll (r : InMemoryUserRepository) : Except String (List User) :=
  .ok (r.users.map Prod.snd)

/-- `Update`: nil input fails with "nil user"; a missing id fails with
"user not found"; otherwise replace `Name`/`Email` on the stored entry,
set `UpdatedAt := now`, and return a copy of the now-current entry. -/
def Update (r : InMemoryUserRepository) (user : Option User) (now : Int) :
    Except String User × InMemoryUserRepository :=
  match user with
  | none => (.error "nil user", r)
  | some u =>
    match alookup r.users u.ID with
    | none => (.error "user not found", r)
    | some existing =>
      let updated : User := { existing with Name := u.Name, Email := u.Email, UpdatedAt := now }
      (.ok updated, { r with users := ainsert r.users u.ID updated })

/-- `Delete`: fail with "user not found" when the id is absent, else remove
the entry; the counter is untouched either way. -/
def Delete (r : InMemoryUserRepository) (id : Int) :
    Except String Unit × InMemoryUserRepository :=
  match alookup r.users id with
  | none => (.error "user not found", r)
  | some _ => (.ok (), { r with users := aerase r.users id })

end InMemoryUserRepository

/-! ## Application service — `internal/usecase/user_service.go` -/

/-- Go `unicode.IsSpace`: the Unicode White_Space property, the character
class trimmed by `strings.TrimSpace`. -/
def isGoSpace (c : Char) : Bool :=
  let n := c.toNat
  n == 0x20 || (decide (0x9 ≤ n) && decide (n ≤ 0xd)) || n == 0x85 || n == 0xa0 ||
  n == 0x1680 || (decide (0x2000 ≤ n) && decide (n ≤ 0x200a)) || n == 0x2028 ||
  n == 0x2029 || n == 0x202f || n == 0x205f || n == 0x3000

/-- `strings.TrimSpace`: drop leading and trailing White_Space characters. -/
def trimSpace (s : String) : String :=
  String.mk (((s.toList.dropWhile isGoSpace).reverse.dropWhile isGoSpace).reverse)

namespace UserService

open InMemoryUserRepository

/-- `UserService.CreateUser`: trim both fields, reject when either is empty,
otherwise delegate to the store with a fresh non-nil record. -/
def CreateUser (r : InMemoryUserRepository) (name email : String) (now : Int) :
    Except String User × InMemoryUserRepository :=
  let name := trimSpace name
  let email := trimSpace email
  if name = "" ∨ email = "" then (.error "name and email are required", r)
  else r.Create (some { User.zero with Name := name, Email := email }) now

/-- `UserService.GetUser`: direct delegation to the store. -/
def GetUser (r : InMemoryUserRepository) (id : Int) : Except String User :=
  r.GetByID id

/-- `UserService.ListUsers`: direct delegation to the store. -/
def ListUsers (r : InMemoryUserRepository) : Except String (List User) :=
  r.ListAll

/-- `UserService.UpdateUser`: trim both fields, reject when either is empty,
otherwise delegate to the store with a fresh non-nil record carrying the id. -/
def UpdateUser (r : InMemoryUserRepository) (id : Int) (name email : String) (now : Int) :
    Except String User × InMemoryUserRepository :=
  let name := trimSpace name
  let email := trimSpace email
  if name = "" ∨ email = "" then (.error "name and email are required", r)
  else r.Update (some { User.zero with ID := id, Name := name, Email := email }) now

/-- `UserService.DeleteUser`: direct delegation to the store. -/
def DeleteUser (r : InMemoryUserRepository) (id : Int) :
    Except String Unit × InMemoryUserRepository :=
  r.Delete id

end UserService

/-! ## Transport adapter — `internal/adapter/http/user_handler.go`

A handler receives the already-decoded request pieces: `pid : Option Int`
is the outcome of `parseID` (`none` = unparseable path id), and
`body : Option (String × String)` the outcome of decoding the JSON body
into `{name, email}` (`none` = invalid JSON). The `respond…` functions are
the branch each handler runs on the service's result. -/

/-- The JSON value written by `writeJSON`. -/
inductive RespBody where
  | jsonError (msg : String)
  | jsonUser (u : User)
  | jsonUsers (us : List User)
  | empty
deriving DecidableEq, Repr

/-- An HTTP response: status code and encoded body. -/
structure HttpResponse where
  status : Nat
  body : RespBody
deriving DecidableEq, Repr

namespace UserHandler

/-- `CreateUser` handler, branch on the service result: any service error
becomes 400 with the error's message, success becomes 201 + record. -/
def respondCreate : Except String User → HttpResponse
  | .error e => ⟨400, .jsonError e⟩
  | .ok u => ⟨201, .jsonUser u⟩

/-- `UserHandler.CreateUser`. -/
def CreateUser (r : InMemoryUserRepository) (body : Option (String × String)) (now : Int) :
    HttpResponse × InMemoryUserRepository :=
  match body with
  | none => (⟨400, .jsonError "invalid JSON"⟩, r)
  | some (name, email) =>
    let (res, r') := UserService.CreateUser r name email now
    (respondCreate res, r')

/-- `GetUser` handler, branch on the service result: any service error
becomes 404 with the fixed body "user not found" (the error's own message
is discarded), success becomes 200 + record. -/
def respondGet : Except String User → HttpResponse
  | .error _ => ⟨404, .jsonError "user not found"⟩
  | .ok u => ⟨200, .jsonUser u⟩

/-- `UserHandler.GetUser`. -/
def GetUser (r : InMemoryUserRepository) (pid : Option Int) : HttpResponse :=
  match pid with
  | none => ⟨400, .jsonError "invalid id"⟩
  | some id => respondGet (UserService.GetUser r id)

/-- `UserHandler.ListUsers`. -/
def ListUsers (r : InMemoryUserRepository) : HttpResponse :=
  match UserService.ListUsers r with
  | .error _ => ⟨500, .jsonError "internal error"⟩
  | .ok us => ⟨200, .jsonUsers us⟩

/-- `UpdateUser` handler, branch on the service result: any service error
becomes 400 with the error's message, success becomes 200 + record. -/
def respondUpdate : Except String User → HttpResponse
  | .error e => ⟨400, .jsonError e⟩
  | .ok u => ⟨200, .jsonUser u⟩

/-- `UserHandler.UpdateUser`. -/
def UpdateUser (r : InMemoryUserRepository) (pid : Option Int)
    (body : Option (String × String)) (now : Int) : HttpResponse × InMemoryUserRepository :=
  match pid with
  | none => (⟨400, .jsonError "invalid id"⟩, r)
  | some id =>
    match body with
    | none => (⟨400, .jsonError "invalid JSON"⟩, r)
    | some (name, email) =>
      let (res, r') := UserService.UpdateUser r id name email now
      (respondUpdate res, r')

/-- `DeleteUser` handler, branch on the service result: any service error
becomes 404 with the fixed body "user not found" (the error's own message
is discarded), success becomes 204 with an empty body. -/
def respondDelete : Except String Unit → HttpResponse
  | .error _ => ⟨404, .jsonError "user not found"⟩
  | .ok _ => ⟨204, .empty⟩

/-- `UserHandler.DeleteUser`. -/
def DeleteUser (r : InMemoryUserRepository) (pid : Option Int) :
    HttpResponse × InMemoryUserRepository :=
  match pid with
  | none => (⟨400, .jsonError "invalid id"⟩, r)
  | some id =>
    let (res, r') := UserService.DeleteUser r id
    (respondDelete res, r')

end UserHandler

/-! ## Claim theorems: store functional contracts -/

open InMemoryUserRepository in
/-- C3: for every non-nil input record, `Create` overwrites any id and
timestamp values present on the input, assigns the freshly allocated id,
sets `CreatedAt` and `UpdatedAt` to the same current time, stores the
record keyed by the new id, and returns it with no error; `Create` fails
with the invalid-argument error exactly on nil input, leaving the map (and
the whole repository) unchanged. -/
theorem create_contract (r : InMemoryUserRepository) (u : User) (now : Int) :
    (r.Create (some u) now).1 =
      .ok ⟨wrap64 (r.autoIncID + 1), u.Name, u.Email, now, now⟩ ∧
    (r.Create (some u) now).2 =
      ⟨wrap64 (r.autoIncID + 1),
        ainsert r.users (wrap64 (r.autoIncID + 1))
          ⟨wrap64 (r.autoIncID + 1), u.Name, u.Email, now, now⟩⟩ ∧
    alookup (r.Create (some u) now).2.users (wrap64 (r.autoIncID + 1)) =
      some ⟨wrap64 (r.autoIncID + 1), u.Name, u.Email, now, now⟩ ∧
    (∀ i ca ua : Int,
      r.Create (some { u with ID := i, CreatedAt := ca, UpdatedAt := ua }) now =
        r.Create (some u) now) ∧
    r.Create none now = (.error "nil user", r) := by
  refine ⟨rfl, rfl, ?_, fun i ca ua => rfl, rfl⟩
  simp only [Create]
  exact alookup_ainsert _ _ _

open InMemoryUserRepository in
/-- C4: for a non-nil input whose id matches an existing entry `e`,
`Update` replaces only that entry's `Name` and `Email`, sets `UpdatedAt`
to the current time (hence never below `CreatedAt` when the clock has not
gone backwards), leaves `ID` and `CreatedAt` (and the counter) unchanged,
and returns a copy of the resulting stored state; when no entry with that
id exists it fails with the not-found error and the repository is
unchanged. -/
theorem update_contract (r : InMemoryUserRepository) (u e : User) (now : Int) :
    (alookup r.users u.ID = some e →
      r.Update (some u) now =
        (.ok ⟨e.ID, u.Name, u.Email, e.CreatedAt, now⟩,
          ⟨r.autoIncID, ainsert r.users u.ID ⟨e.ID, u.Name, u.Email, e.CreatedAt, now⟩⟩) ∧
      alookup (r.Update (some u) now).2.users u.ID =
        some ⟨e.ID, u.Name, u.Email, e.CreatedAt, now⟩ ∧
      (e.CreatedAt ≤ now →
        (⟨e.ID, u.Name, u.Email, e.CreatedAt, now⟩ : User).CreatedAt ≤
          (⟨e.ID, u.Name, u.Email, e.CreatedAt, now⟩ : User).UpdatedAt)) ∧
    (alookup r.users u.ID = none →
      r.Update (some u) now = (.error "user not found", r)) := by
  constructor
  · intro h
    refine ⟨?_, ?_, fun h' => h'⟩
    · simp only [Update, h]
    · simp only [Update, h]
      exact alookup_ainsert _ _ _
  · intro h
    simp only [Update, h]

/-- Witness for `update_contract` at a one-entry repository. -/
theorem update_contract_witness :
    (InMemoryUserRepository.mk 1 [(1, ⟨1, "Alice", "a@x", 5, 5⟩)]).Update
        (some ⟨1, "Bob", "b@x", 0, 0⟩) 9 =
      (.ok ⟨1, "Bob", "b@x", 5, 9⟩,
        ⟨1, [(1, ⟨1, "Bob", "b@x", 5, 9⟩)]⟩) ∧
    (InMemoryUserRepository.mk 1 [(1, ⟨1, "Alice", "a@x", 5, 5⟩)]).Update
        (some ⟨2, "Bob", "b@x", 0, 0⟩) 9 =
      (.error "user not found", ⟨1, [(1, ⟨1, "Alice", "a@x", 5, 5⟩)]⟩) :=
  ⟨((update_contract ⟨1, [(1, ⟨1, "Alice", "a@x", 5, 5⟩)]⟩
      ⟨1, "Bob", "b@x", 0, 0⟩ ⟨1, "Alice", "a@x", 5, 5⟩ 9).1 rfl).1,
    (update_contract ⟨1, [(1, ⟨1, "Alice", "a@x", 5, 5⟩)]⟩
      ⟨2, "Bob", "b@x", 0, 0⟩ ⟨1, "Alice", "a@x", 5, 5⟩ 9).2 rfl⟩

/-! ## Claim theorems: application service -/

open InMemoryUserRepository in
/-- C7: `CreateUser` and `UpdateUser` first trim both fields; if either is
empty after trimming they fail with the `Validation` error "name and email
are required" without touching the store; otherwise they call the store
with the trimmed values wrapped in a non-nil record — so the store's
nil-input "nil user" path is never reached through the service. -/
theorem service_trims_and_validates (r : InMemoryUserRepository)
    (name email : String) (id now : Int) :
    (trimSpace name = "" ∨ trimSpace email = "" →
      UserService.CreateUser r name email now =
        (.error "name and email are required", r) ∧
      UserService.UpdateUser r id name email now =
        (.error "name and email are required", r)) ∧
    (trimSpace name ≠ "" → trimSpace email ≠ "" →
      UserService.CreateUser r name email now =
        r.Create (some ⟨0, trimSpace name, trimSpace email, 0, 0⟩) now ∧
      UserService.UpdateUser r id name email now =
        r.Update (some ⟨id, trimSpace name, trimSpace email, 0, 0⟩) now) ∧
    (UserService.CreateUser r name email now).1 ≠ .error "nil user" ∧
    (UserService.UpdateUser r id name email now).1 ≠ .error "nil user" := by
  refine ⟨?_, ?_, ?_, ?_⟩
  · intro h
    constructor
    · simp only [UserService.CreateUser]
      rw [if_pos h]
    · simp only [UserService.UpdateUser]
      rw [if_pos h]
  · intro h1 h2
    have h : ¬(trimSpace name = "" ∨ trimSpace email = "") := by tauto
    constructor
    · simp only [UserService.CreateUser]
      rw [if_neg h]
      rfl
    · simp only [UserService.UpdateUser]
      rw [if_neg h]
      rfl
  · by_cases h : trimSpace name = "" ∨ trimSpace email = ""
    · simp only [UserService.CreateUser]
      rw [if_pos h]
      simp
    · simp only [UserService.CreateUser]
      rw [if_neg h]
      simp [Create]
  · by_cases h : trimSpace name = "" ∨ trimSpace email = ""
    · simp only [UserService.UpdateUser]
      rw [if_pos h]
      simp
    · simp only [UserService.UpdateUser]
      rw [if_neg h]
      cases halo : alookup r.users id with
      | none => simp [Update, halo]
      | some e => simp [Update, halo]

/-- Witness for `service_trims_and_validates`: an all-blank name is
rejected before the store is called, and trimmed values reach the store. -/
theorem service_trims_and_validates_witness :
    UserService.CreateUser InMemoryUserRepository.new "   " "a@x" 3 =
      (.error "name and email are required", InMemoryUserRepository.new) ∧
    UserService.CreateUser InMemoryUserRepository.new " Alice " "a@x" 3 =
      InMemoryUserRepository.new.Create (some ⟨0, "Alice", "a@x", 0, 0⟩) 3 :=
  ⟨((service_trims_and_validates InMemoryUserRepository.new "   " "a@x" 0 3).1
      (Or.inl (by decide))).1,
    by
      have h := ((service_trims_and_validates InMemoryUserRepository.new " Alice " "a@x" 0 3).2.1
        (by decide) (by decide)).1
      have ht : trimSpace " Alice " = "Alice" := by decide
      rw [ht] at h
      exact h⟩

open InMemoryUserRepository in
/-- C8: `GetUser`, `ListUsers` and `DeleteUser` return exactly what the
store's `GetByID`, `List` and `Delete` produce, unchanged; and whenever the
validation pre-check passes, `CreateUser`/`UpdateUser` return exactly what
the store's `Create`/`Update` return for the trimmed input. -/
theorem service_passthrough (r : InMemoryUserRepository) (id now : Int)
    (name email : String) :
    UserService.GetUser r id = r.GetByID id ∧
    UserService.ListUsers r = r.ListAll ∧
    UserService.DeleteUser r id = r.Delete id ∧
    (trimSpace name ≠ "" → trimSpace email ≠ "" →
      UserService.CreateUser r name email now =
        r.Create (some ⟨0, trimSpace name, trimSpace email, 0, 0⟩) now ∧
      UserService.UpdateUser r id name email now =
        r.Update (some ⟨id, trimSpace name, trimSpace email, 0, 0⟩) now) := by
  refine ⟨rfl, rfl, rfl, fun h1 h2 => ?_⟩
  have h : ¬(trimSpace name = "" ∨ trimSpace email = "") := by tauto
  constructor
  · simp only [UserService.CreateUser]
    rw [if_neg h]
    rfl
  · simp only [UserService.UpdateUser]
    rw [if_neg h]
    rfl

/-- Witness for `service_passthrough` at a concrete repository and input. -/
theorem service_passthrough_witness :
    UserService.GetUser InMemoryUserRepository.new 7 =
      InMemoryUserRepository.new.GetByID 7 ∧
    UserService.CreateUser InMemoryUserRepository.new "Alice" "a@x" 3 =
      InMemoryUserRepository.new.Create (some ⟨0, "Alice", "a@x", 0, 0⟩) 3 :=
  ⟨(service_passthrough InMemoryUserRepository.new 7 3 "Alice" "a@x").1,
    by
      have h := ((service_passthrough InMemoryUserRepository.new 7 3 "Alice" "a@x").2.2.2
        (by decide) (by decide)).1
      have ht : trimSpace "Alice" = "Alice" := by decide
      rw [ht] at h
      exact h⟩

/-! ## Claim theorems: transport adapter -/

/-- C10: the GET and DELETE route handlers map every service failure,
whatever its message, to 404 with the fixed body `{"error": "user not
found"}` — the failure's own message is discarded. The final two equations
show the handlers route every service result through exactly these
branches. -/
theorem handlers_discard_error_detail (msg : String)
    (r : InMemoryUserRepository) (id : Int) :
    UserHandler.respondGet (.error msg) = ⟨404, .jsonError "user not found"⟩ ∧
    UserHandler.respondDelete (.error msg) = ⟨404, .jsonError "user not found"⟩ ∧
    UserHandler.GetUser r (some id) =
      UserHandler.respondGet (UserService.GetUser r id) ∧
    UserHandler.DeleteUser r (some id) =
      (UserHandler.respondDelete (UserService.DeleteUser r id).1,
        (UserService.DeleteUser r id).2) :=
  ⟨rfl, rfl, rfl, rfl⟩

/-- C6 counterexample: a PUT `/api/v1/users/{id}` for a nonexistent id does
NOT yield a not-found (404) status — the update handler maps every service
failure to 400, so the response is 400 with body
`{"error": "user not found"}`. -/
theorem put_nonexistent_is_400_not_404 :
    (UserHandler.UpdateUser InMemoryUserRepository.new (some 1)
        (some ("Bob", "bob@example.com")) 7).1.status = 400 ∧
    (UserHandler.UpdateUser InMemoryUserRepository.new (some 1)
        (some ("Bob", "bob@example.com")) 7).1.status ≠ 404 ∧
    (UserHandler.UpdateUser InMemoryUserRepository.new (some 1)
        (some ("Bob", "bob@example.com")) 7).1.body =
      .jsonError "user not found" := by
  refine ⟨rfl, by decide, rfl⟩

open InMemoryUserRepository in
/-- C6 (amended): validation and JSON-decode failures map to a client-error
(400) status; `NotFound` failures map to a not-found (404) status in the
GET and DELETE handlers, while the PUT handler maps every service failure —
including a nonexistent id — to 400 (with the store's "user not found"
message as body); a successful DELETE yields 204 with an empty body. -/
theorem handler_status_mapping (r : InMemoryUserRepository)
    (name email : String) (id now : Int) :
    UserHandler.CreateUser r none now = (⟨400, .jsonError "invalid JSON"⟩, r) ∧
    (trimSpace name = "" ∨ trimSpace email = "" →
      UserHandler.CreateUser r (some (name, email)) now =
        (⟨400, .jsonError "name and email are required"⟩, r)) ∧
    UserHandler.UpdateUser r none (some (name, email)) now =
      (⟨400, .jsonError "invalid id"⟩, r) ∧
    UserHandler.UpdateUser r (some id) none now =
      (⟨400, .jsonError "invalid JSON"⟩, r) ∧
    (trimSpace name = "" ∨ trimSpace email = "" →
      UserHandler.UpdateUser r (some id) (some (name, email)) now =
        (⟨400, .jsonError "name and email are required"⟩, r)) ∧
    (alookup r.users id = none → trimSpace name ≠ "" → trimSpace email ≠ "" →
      UserHandler.UpdateUser r (some id) (some (name, email)) now =
        (⟨400, .jsonError "user not found"⟩, r)) ∧
    (alookup r.users id = none →
      UserHandler.GetUser r (some id) = ⟨404, .jsonError "user not found"⟩ ∧
      UserHandler.DeleteUser r (some id) =
        ((⟨404, .jsonError "user not found"⟩ : HttpResponse), r)) ∧
    (∀ u, alookup r.users id = some u →
      UserHandler.DeleteUser r (some id) =
        ((⟨204, .empty⟩ : HttpResponse), ⟨r.autoIncID, aerase r.users id⟩)) := by
  refine ⟨rfl, ?_, rfl, rfl, ?_, ?_, ?_, ?_⟩
  · intro h
    simp only [UserHandler.CreateUser, UserService.CreateUser]
    rw [if_pos h]
    rfl
  · intro h
    simp only [UserHandler.UpdateUser, UserService.UpdateUser]
    rw [if_pos h]
    rfl
  · intro hl h1 h2
    have h : ¬(trimSpace name = "" ∨ trimSpace email = "") := by tauto
    simp only [UserHandler.UpdateUser, UserService.UpdateUser]
    rw [if_neg h]
    simp only [Update, hl]
    rfl
  · intro hl
    constructor
    · simp only [UserHandler.GetUser, UserService.GetUser, GetByID, hl]
      rfl
    · simp only [UserHandler.DeleteUser, UserService.DeleteUser, Delete, hl]
      rfl
  · intro u hl
    simp only [UserHandler.DeleteUser, UserService.DeleteUser, Delete, hl]
    rfl

/-- Witness for `handler_status_mapping`: concrete requests against the
fresh store and a one-entry store. -/
theorem handler_status_mapping_witness :
    UserHandler.UpdateUser InMemoryUserRepository.new (some 1)
        (some ("Bob", "b@x")) 7 =
      (⟨400, .jsonError "user not found"⟩, InMemoryUserRepository.new) ∧
    UserHandler.CreateUser InMemoryUserRepository.new (some ("  ", "b@x")) 7 =
      (⟨400, .jsonError "name and email are required"⟩, InMemoryUserRepository.new) ∧
    UserHandler.GetUser InMemoryUserRepository.new (some 1) =
      ⟨404, .jsonError "user not found"⟩ ∧
    UserHandler.DeleteUser (InMemoryUserRepository.mk 1 [(1, ⟨1, "A", "a@x", 2, 2⟩)]) (some 1) =
      ((⟨204, .empty⟩ : HttpResponse), ⟨1, []⟩) :=
  ⟨(handler_status_mapping InMemoryUserRepository.new "Bob" "b@x" 1 7).2.2.2.2.2.1
      rfl (by decide) (by decide),
    ((handler_status_mapping InMemoryUserRepository.new "  " "b@x" 1 7).2.1
      (Or.inl (by decide))),
    ((handler_status_mapping InMemoryUserRepository.new "x" "y" 1 7).2.2.2.2.2.2.1 rfl).1,
    (handler_status_mapping (InMemoryUserRepository.mk 1 [(1, ⟨1, "A", "a@x", 2, 2⟩)])
      "x" "y" 1 7).2.2.2.2.2.2.2 ⟨1, "A", "a@x", 2, 2⟩ rfl⟩

/-! ## Runs of store operations (for the lifetime invariants C2, C5) -/

/-- One mutating store call, carrying the clock value its execution
observes. Read-only calls (`GetByID`, `List`) do not change the repository
and need no place in a run. -/
inductive StoreOp where
  | createOp (user : Option User) (now : Int)
  | updateOp (user : Option User) (now : Int)
  | deleteOp (id : Int)
deriving Repr

namespace InMemoryUserRepository

/-- The repository state after one mutating call. -/
def applyOp (r : InMemoryUserRepository) : StoreOp → InMemoryUserRepository
  | .createOp u now => (r.Create u now).2
  | .updateOp u now => (r.Update u now).2
  | .deleteOp id => (r.Delete id).2

/-- The repository state after a sequence of mutating calls. -/
def run (r : InMemoryUserRepository) : List StoreOp → InMemoryUserRepository
  | [] => r
  | op :: ops => (r.applyOp op).run ops

/-- The ids returned by the successful `Create` calls of a run, in call
order. -/
def createdIds (r : InMemoryUserRepository) : List StoreOp → List Int
  | [] => []
  | .createOp (some u) now :: ops =>
    match (r.Create (some u) now).1 with
    | .ok c => c.ID :: createdIds (r.Create (some u) now).2 ops
    | .error _ => createdIds (r.Create (some u) now).2 ops
  | .createOp none now :: ops => createdIds (r.applyOp (.createOp none now)) ops
  | .updateOp u now :: ops => createdIds (r.applyOp (.updateOp u now)) ops
  | .deleteOp i :: ops => createdIds (r.applyOp (.deleteOp i)) ops

theorem Update_counter (r : InMemoryUserRepository) (u : Option User) (now : Int) :
    (r.Update u now).2.autoIncID = r.autoIncID := by
  match u with
  | none => rfl
  | some u =>
    simp only [Update]
    cases alookup r.users u.ID <;> rfl

theorem Delete_counter (r : InMemoryUserRepository) (id : Int) :
    (r.Delete id).2.autoIncID = r.autoIncID := by
  simp only [Delete]
  cases alookup r.users id <;> rfl

theorem Create_some_counter (r : InMemoryUserRepository) (u : User) (now : Int) :
    (r.Create (some u) now).2.autoIncID = wrap64 (r.autoIncID + 1) := rfl

/-- Range of the counter after one call: never decreased, grows by at most
one, and stays exact (`+1` on a successful create) while in `int64` range. -/
theorem applyOp_counter_le (r : InMemoryUserRepository) (op : StoreOp)
    (h0 : 0 ≤ r.autoIncID) (h1 : r.autoIncID + 1 ≤ 2 ^ 63 - 1) :
    r.autoIncID ≤ (r.applyOp op).autoIncID ∧
    (r.applyOp op).autoIncID ≤ r.autoIncID + 1 := by
  match op with
  | .createOp none now =>
    have : (r.applyOp (.createOp none now)).autoIncID = r.autoIncID := rfl
    omega
  | .createOp (some u) now =>
    have : (r.applyOp (.createOp (some u) now)).autoIncID = wrap64 (r.autoIncID + 1) := rfl
    rw [this, wrap64_eq_self (r.autoIncID + 1) (by omega) (by omega)]
    omega
  | .updateOp u now =>
    have : (r.applyOp (.updateOp u now)).autoIncID = r.autoIncID := Update_counter r u now
    omega
  | .deleteOp id =>
    have : (r.applyOp (.deleteOp id)).autoIncID = r.autoIncID := Delete_counter r id
    omega

/-- Main run invariant: while the number of calls keeps the counter inside
`int64` range, the counter is monotone and bounded by the number of calls,
and the ids handed out by successful creates are strictly above the
starting counter, at most the final counter, and strictly increasing. -/
theorem run_invariant (ops : List StoreOp) :
    ∀ r : InMemoryUserRepository, 0 ≤ r.autoIncID →
    r.autoIncID + ops.length ≤ 2 ^ 63 - 1 →
    r.autoIncID ≤ (r.run ops).autoIncID ∧
    (r.run ops).autoIncID ≤ r.autoIncID + ops.length ∧
    (∀ x ∈ createdIds r ops, r.autoIncID < x ∧ x ≤ (r.run ops).autoIncID) ∧
    (createdIds r ops).Pairwise (· < ·) := by
  induction ops with
  | nil =>
    intro r h0 _
    exact ⟨le_refl _, by simp [run], by simp [createdIds], by simp [createdIds]⟩
  | cons op ops ih =>
    intro r h0 hlen
    have hlen1 : r.autoIncID + 1 ≤ 2 ^ 63 - 1 := by
      have := ops.length_cons op ▸ hlen
      simp only [List.length_cons] at hlen
      push_cast at hlen ⊢
      omega
    obtain ⟨hs1, hs2⟩ := applyOp_counter_le r op h0 hlen1
    have hstep : r.autoIncID ≤ (r.applyOp op).autoIncID ∧
        (r.applyOp op).autoIncID ≤ r.autoIncID + 1 := ⟨hs1, hs2⟩
    have h0' : 0 ≤ (r.applyOp op).autoIncID := le_trans h0 hs1
    have hlen' : (r.applyOp op).autoIncID + ops.length ≤ 2 ^ 63 - 1 := by
      simp only [List.length_cons] at hlen
      push_cast at hlen ⊢
      omega
    have ihs := ih (r.applyOp op) h0' hlen'
    have hrun : r.run (op :: ops) = (r.applyOp op).run ops := rfl
    match op with
    | .createOp none now =>
      have hids : createdIds r (.createOp none now :: ops) =
          createdIds (r.applyOp (.createOp none now)) ops := rfl
      have hc : (r.applyOp (.createOp none now)).autoIncID = r.autoIncID := rfl
      rw [hrun, hids]
      refine ⟨le_trans hstep.1 ihs.1, ?_, ?_, ihs.2.2.2⟩
      · have := ihs.2.1
        simp only [List.length_cons]
        push_cast
        rw [hc] at this
        omega
      · intro x hx
        have := ihs.2.2.1 x hx
        rw [hc] at this
        exact ⟨this.1, this.2⟩
    | .createOp (some u) now =>
      have hc : (r.applyOp (.createOp (some u) now)).autoIncID = r.autoIncID + 1 := by
        have : (r.applyOp (.createOp (some u) now)).autoIncID = wrap64 (r.autoIncID + 1) := rfl
        rw [this, wrap64_eq_self (r.autoIncID + 1) (by omega) (by omega)]
      have hids : createdIds r (.createOp (some u) now :: ops) =
          wrap64 (r.autoIncID + 1) ::
            createdIds (r.applyOp (.createOp (some u) now)) ops := rfl
      have hw : wrap64 (r.autoIncID + 1) = r.autoIncID + 1 :=
        wrap64_eq_self (r.autoIncID + 1) (by omega) (by omega)
      rw [hrun, hids, hw]
      refine ⟨le_trans hstep.1 ihs.1, ?_, ?_, ?_⟩
      · have := ihs.2.1
        simp only [List.length_cons]
        push_cast
        rw [hc] at this
        omega
      · intro x hx
        rcases List.mem_cons.1 hx with hx | hx
        · subst hx
          exact ⟨by omega, by rw [← hc]; exact ihs.1⟩
        · have := ihs.2.2.1 x hx
          rw [hc] at this
          exact ⟨by omega, this.2⟩
      · refine List.pairwise_cons.2 ⟨?_, ihs.2.2.2⟩
        intro y hy
        have := ihs.2.2.1 y hy
        rw [hc] at this
        omega
    | .updateOp u now =>
      have hids : createdIds r (.updateOp u now :: ops) =
          createdIds (r.applyOp (.updateOp u now)) ops := rfl
      have hc : (r.applyOp (.updateOp u now)).autoIncID = r.autoIncID :=
        Update_counter r u now
      rw [hrun, hids]
      refine ⟨le_trans hstep.1 ihs.1, ?_, ?_, ihs.2.2.2⟩
      · have := ihs.2.1
        simp only [List.length_cons]
        push_cast
        rw [hc] at this
        omega
      · intro x hx
        have := ihs.2.2.1 x hx
        rw [hc] at this
        exact ⟨this.1, this.2⟩
    | .deleteOp i =>
      have hids : createdIds r (.deleteOp i :: ops) =
          createdIds (r.applyOp (.deleteOp i)) ops := rfl
      have hc : (r.applyOp (.deleteOp i)).autoIncID = r.autoIncID :=
        Delete_counter r i
      rw [hrun, hids]
      refine ⟨le_trans hstep.1 ihs.1, ?_, ?_, ihs.2.2.2⟩
      · have := ihs.2.1
        simp only [List.length_cons]
        push_cast
        rw [hc] at this
        omega
      · intro x hx
        have := ihs.2.2.1 x hx
        rw [hc] at this
        exact ⟨this.1, this.2⟩

end InMemoryUserRepository

namespace InMemoryUserRepository

/-- Every key currently in the map was handed out by the counter: it is at
most `autoIncID`. Holds in every state reachable from `new`. -/
def keysBounded (r : InMemoryUserRepository) : Prop :=
  ∀ k ∈ r.users.map Prod.fst, k ≤ r.autoIncID

theorem applyOp_keysBounded (r : InMemoryUserRepository) (op : StoreOp)
    (h0 : 0 ≤ r.autoIncID) (h1 : r.autoIncID + 1 ≤ 2 ^ 63 - 1)
    (hk : keysBounded r) : keysBounded (r.applyOp op) := by
  match op with
  | .createOp none now => exact hk
  | .createOp (some u) now =>
    intro k hkmem
    have hc : (r.applyOp (.createOp (some u) now)).autoIncID =
        wrap64 (r.autoIncID + 1) := rfl
    have hw : wrap64 (r.autoIncID + 1) = r.autoIncID + 1 :=
      wrap64_eq_self _ (by omega) (by omega)
    have husers : (r.applyOp (.createOp (some u) now)).users =
        ainsert r.users (wrap64 (r.autoIncID + 1))
          ⟨wrap64 (r.autoIncID + 1), u.Name, u.Email, now, now⟩ := rfl
    rw [husers] at hkmem
    rcases keys_ainsert_subset _ _ _ _ hkmem with h | h
    · rw [hc, h]
    · have := hk k h
      rw [hc, hw]
      omega
  | .updateOp none now => exact hk
  | .updateOp (some u) now =>
    intro k hkmem
    cases hl : alookup r.users u.ID with
    | none =>
      have heq : r.applyOp (.updateOp (some u) now) = r := by
        simp [applyOp, Update, hl]
      rw [heq] at hkmem ⊢
      exact hk k hkmem
    | some e =>
      have hc : (r.applyOp (.updateOp (some u) now)).autoIncID = r.autoIncID :=
        Update_counter r (some u) now
      have husers : (r.applyOp (.updateOp (some u) now)).users =
          ainsert r.users u.ID ⟨e.ID, u.Name, u.Email, e.CreatedAt, now⟩ := by
        simp [applyOp, Update, hl]
      rw [husers] at hkmem
      rcases keys_ainsert_subset _ _ _ _ hkmem with h | h
      · subst h
        rw [hc]
        exact hk _ (mem_keys_of_alookup_some _ _ _ hl)
      · rw [hc]
        exact hk k h
  | .deleteOp i =>
    intro k hkmem
    cases hl : alookup r.users i with
    | none =>
      have heq : r.applyOp (.deleteOp i) = r := by
        simp [applyOp, Delete, hl]
      rw [heq] at hkmem ⊢
      exact hk k hkmem
    | some e =>
      have hc : (r.applyOp (.deleteOp i)).autoIncID = r.autoIncID :=
        Delete_counter r i
      have husers : (r.applyOp (.deleteOp i)).users = aerase r.users i := by
        simp [applyOp, Delete, hl]
      rw [husers] at hkmem
      rw [hc]
      exact hk k (keys_aerase_subset _ _ _ hkmem)

theorem run_keysBounded (ops : List StoreOp) :
    ∀ r : InMemoryUserRepository, 0 ≤ r.autoIncID →
    r.autoIncID + ops.length ≤ 2 ^ 63 - 1 →
    keysBounded r → keysBounded (r.run ops) := by
  induction ops with
  | nil => intro r _ _ hk; exact hk
  | cons op ops ih =>
    intro r h0 hlen hk
    have hlen1 : r.autoIncID + 1 ≤ 2 ^ 63 - 1 := by
      simp only [List.length_cons] at hlen
      push_cast at hlen
      omega
    obtain ⟨hs1, hs2⟩ := applyOp_counter_le r op h0 hlen1
    exact ih (r.applyOp op) (by omega)
      (by simp only [List.length_cons] at hlen; push_cast at hlen ⊢; omega)
      (applyOp_keysBounded r op h0 hlen1 hk)

end InMemoryUserRepository

open InMemoryUserRepository in
/-- C2: along any run of mutating calls from a fresh store whose length
stays inside `int64` range, the ids assigned by successful `Create` calls
are strictly increasing in call order (hence pairwise distinct); while in
range, a successful `Create` advances the counter by exactly one and
returns a record carrying the new counter value, and a nil `Create`
leaves the repository (counter included) unchanged. -/
theorem create_ids_monotonic (ops : List StoreOp)
    (hlen : (ops.length : Int) ≤ 2 ^ 63 - 1) :
    (createdIds new ops).Pairwise (· < ·) ∧
    (createdIds new ops).Pairwise (· ≠ ·) ∧
    (∀ (r : InMemoryUserRepository) (u : User) (now : Int),
      0 ≤ r.autoIncID → r.autoIncID + 1 ≤ 2 ^ 63 - 1 →
      (r.Create (some u) now).2.autoIncID = r.autoIncID + 1 ∧
      (r.Create (some u) now).1 =
        .ok ⟨r.autoIncID + 1, u.Name, u.Email, now, now⟩) ∧
    (∀ (r : InMemoryUserRepository) (now : Int),
      r.Create none now = (.error "nil user", r)) := by
  have hinv := run_invariant ops new (by simp [new])
    (by simpa [new] using hlen)
  refine ⟨hinv.2.2.2, hinv.2.2.2.imp (fun h => ne_of_lt h), ?_, fun r now => rfl⟩
  intro r u now h0 h1
  have hw : wrap64 (r.autoIncID + 1) = r.autoIncID + 1 :=
    wrap64_eq_self _ (by omega) (by omega)
  constructor
  · rw [Create_some_counter, hw]
  · have heq : (r.Create (some u) now).1 =
        .ok ⟨wrap64 (r.autoIncID + 1), u.Name, u.Email, now, now⟩ := rfl
    rw [heq, hw]

/-- Witness for `create_ids_monotonic`: a run of three successful creates,
one nil create and a delete yields the ids 1, 2, 3 in order. -/
theorem create_ids_monotonic_witness :
    (InMemoryUserRepository.createdIds InMemoryUserRepository.new
      [.createOp (some ⟨0, "A", "a@x", 0, 0⟩) 1,
       .createOp (some ⟨0, "B", "b@x", 0, 0⟩) 2,
       .createOp none 3,
       .deleteOp 1,
       .createOp (some ⟨0, "C", "c@x", 0, 0⟩) 4]).Pairwise (· < ·) ∧
    InMemoryUserRepository.createdIds InMemoryUserRepository.new
      [.createOp (some ⟨0, "A", "a@x", 0, 0⟩) 1,
       .createOp (some ⟨0, "B", "b@x", 0, 0⟩) 2,
       .createOp none 3,
       .deleteOp 1,
       .createOp (some ⟨0, "C", "c@x", 0, 0⟩) 4] = [1, 2, 3] :=
  ⟨(create_ids_monotonic _ (by norm_num)).1, by decide⟩

open InMemoryUserRepository in
/-- C5: `Delete` fails with the not-found error exactly when the id is
absent, leaving the repository unchanged; after a successful `Delete(id)`,
`GetByID(id)` fails with the not-found error, the identifier counter is
untouched, and no later `Create` in any continuation run inside `int64`
range ever assigns `id` again. -/
theorem delete_finality (ops ops2 : List StoreOp) (id : Int)
    (hlen : (ops.length : Int) + ops2.length ≤ 2 ^ 63 - 1) :
    (alookup (new.run ops).users id = none →
      (new.run ops).Delete id = (.error "user not found", new.run ops)) ∧
    (∀ u, alookup (new.run ops).users id = some u →
      (new.run ops).Delete id =
        (.ok (), ⟨(new.run ops).autoIncID, aerase (new.run ops).users id⟩) ∧
      ((new.run ops).Delete id).2.GetByID id = .error "user not found" ∧
      ((new.run ops).Delete id).2.autoIncID = (new.run ops).autoIncID ∧
      id ∉ createdIds ((new.run ops).Delete id).2 ops2) := by
  have hinv := run_invariant ops new (by simp [new])
    (by simp only [new]; push_cast at hlen ⊢; omega)
  have h0run : (0 : Int) ≤ (new.run ops).autoIncID := by
    have := hinv.1
    simpa [new] using this
  have hlenrun : (new.run ops).autoIncID ≤ ops.length := by
    have := hinv.2.1
    simpa [new] using this
  have hkb : keysBounded (new.run ops) := by
    refine run_keysBounded ops new (by simp [new])
      (by simp only [new]; push_cast at hlen ⊢; omega) ?_
    intro k hk
    simp [new] at hk
  constructor
  · intro h
    simp only [Delete, h]
  · intro u hu
    have hd : (new.run ops).Delete id =
        (.ok (), ⟨(new.run ops).autoIncID, aerase (new.run ops).users id⟩) := by
      simp only [Delete, hu]
    refine ⟨hd, ?_, ?_, ?_⟩
    · rw [hd]
      simp only [GetByID, alookup_aerase]
    · rw [hd]
    · rw [hd]
      intro hmem
      have hid : id ≤ (new.run ops).autoIncID :=
        hkb id (mem_keys_of_alookup_some _ _ _ hu)
      have hinv2 := run_invariant ops2
        ⟨(new.run ops).autoIncID, aerase (new.run ops).users id⟩
        h0run (by push_cast at hlen ⊢; omega)
      have := (hinv2.2.2.1 id hmem).1
      simp only at this
      omega

/-- Witness for `delete_finality`: create id 1, delete it; `GetByID 1` then
fails with "user not found" and a further create run assigns 2, not 1. -/
theorem delete_finality_witness :
    ((InMemoryUserRepository.new.run
        [.createOp (some ⟨0, "A", "a@x", 0, 0⟩) 1]).Delete 1).2.GetByID 1 =
      .error "user not found" ∧
    1 ∉ InMemoryUserRepository.createdIds
      ((InMemoryUserRepository.new.run
        [.createOp (some ⟨0, "A", "a@x", 0, 0⟩) 1]).Delete 1).2
      [.createOp (some ⟨0, "B", "b@x", 0, 0⟩) 2] := by
  have h := (delete_finality [.createOp (some ⟨0, "A", "a@x", 0, 0⟩) 1]
    [.createOp (some ⟨0, "B", "b@x", 0, 0⟩) 2] 1 (by norm_num)).2
    ⟨1, "A", "a@x", 1, 1⟩ (by decide)
  exact ⟨h.2.1, h.2.2.2⟩

/-! ## Pointer-level embedding — aliasing and defensive copies

The Go map stores `*domain.User` pointers and the operations copy structs
and hand out addresses (`&copy`). To settle the aliasing claims, the store
is embedded a second time with pointers explicit: a heap maps addresses to
`User` cells, the repository map stores addresses, and every `&copy` in
the source is an allocation of a fresh cell. -/

theorem mem_vals_of_alookup_some {κ α : Type} [DecidableEq κ] (m : List (κ × α)) (k : κ)
    (v : α) (h : alookup m k = some v) : v ∈ m.map Prod.snd := by
  induction m with
  | nil => simp [alookup] at h
  | cons p m ih =>
    obtain ⟨k₀, v₀⟩ := p
    by_cases h₀ : k = k₀
    · subst h₀
      rw [alookup, if_pos rfl] at h
      cases h
      simp
    · simp only [alookup, if_neg h₀] at h
      simp [ih h]

/-- A heap of `domain.User` cells: `nextAddr` is the next fresh address,
`cells` maps allocated addresses to their current contents. -/
structure Heap where
  nextAddr : Nat
  cells : List (Nat × User)
deriving DecidableEq, Repr

namespace Heap

/-- The empty heap. -/
def empty : Heap := ⟨0, []⟩

/-- Dereference `*p`. Reading an unallocated address yields the zero
`User`; the operations below only ever read allocated addresses. -/
def read (h : Heap) (a : Nat) : User := (alookup h.cells a).getD User.zero

/-- Assignment through a pointer (`p.Field = …` seen as a whole-record
store) — also how a caller mutates a record it holds a pointer to. -/
def write (h : Heap) (a : Nat) (u : User) : Heap :=
  ⟨h.nextAddr, ainsert h.cells a u⟩

/-- `copy := v` followed by taking `&copy`: a fresh cell holding `v`. -/
def alloc (h : Heap) (v : User) : Nat × Heap :=
  (h.nextAddr, ⟨h.nextAddr + 1, ainsert h.cells h.nextAddr v⟩)

theorem read_write_self (h : Heap) (a : Nat) (u : User) :
    (h.write a u).read a = u := by
  simp [read, write, alookup_ainsert]

theorem read_write_ne (h : Heap) (a b : Nat) (u : User) (hab : b ≠ a) :
    (h.write a u).read b = h.read b := by
  simp [read, write, alookup_ainsert_ne _ _ _ _ hab]

theorem read_alloc_self (h : Heap) (v : User) :
    (h.alloc v).2.read (h.alloc v).1 = v := by
  simp [read, alloc, alookup_ainsert]

theorem read_alloc_ne (h : Heap) (v : User) (a : Nat) (ha : a ≠ h.nextAddr) :
    (h.alloc v).2.read a = h.read a := by
  simp [read, alloc, alookup_ainsert_ne _ _ _ _ ha]

end Heap

/-- `InMemoryUserRepository` at pointer level: the map stores the heap
addresses of `*domain.User` cells, exactly as the Go map stores pointers. -/
structure PtrRepo where
  autoIncID : Int
  users : List (Int × Nat)
deriving DecidableEq, Repr

namespace PtrRepo

/-- `NewInMemoryUserRepository()` with an empty heap alongside. -/
def new : PtrRepo := ⟨0, []⟩

/-- `Create` at pointer level. The source runs `copy := *user`, stores
`&copy` in the map AND returns the same `&copy`: one allocation — the
returned address is the stored address. -/
def Create (r : PtrRepo) (h : Heap) (user : Option User) (now : Int) :
    Except String Nat × PtrRepo × Heap :=
  match user with
  | none => (.error "nil user", r, h)
  | some u =>
    let id := wrap64 (r.autoIncID + 1)
    let copy : User := { u with ID := id, CreatedAt := now, UpdatedAt := now }
    let (p, h') := h.alloc copy
    (.ok p, ⟨id, ainsert r.users id p⟩, h')

/-- `GetByID` at pointer level: `copy := *u; return &copy` — the caller
receives a freshly allocated cell. -/
def GetByID (r : PtrRepo) (h : Heap) (id : Int) : Except String Nat × Heap :=
  match alookup r.users id with
  | none => (.error "user not found", h)
  | some p =>
    let (q, h') := h.alloc (h.read p)
    (.ok q, h')

/-- The loop body of `List`: for each stored pointer, `copy := *u;
result = append(result, &copy)`. -/
def listCopies : List (Int × Nat) → Heap → List Nat × Heap
  | [], h => ([], h)
  | (_, p) :: rest, h =>
    let (q, h') := h.alloc (h.read p)
    let (qs, h'') := listCopies rest h'
    (q :: qs, h'')

/-- `List` at pointer level. -/
def ListAll (r : PtrRepo) (h : Heap) : List Nat × Heap := listCopies r.users h

/-- `Update` at pointer level: mutate the stored cell in place through the
stored pointer, then `copy := *existing; return &copy` (a fresh cell). -/
def Update (r : PtrRepo) (h : Heap) (user : Option User) (now : Int) :
    Except String Nat × PtrRepo × Heap :=
  match user with
  | none => (.error "nil user", r, h)
  | some u =>
    match alookup r.users u.ID with
    | none => (.error "user not found", r, h)
    | some p =>
      let e := h.read p
      let upd : User := { e with Name := u.Name, Email := u.Email, UpdatedAt := now }
      let h1 := h.write p upd
      let (q, h2) := h1.alloc upd
      (.ok q, r, h2)

/-- The addresses the store's map currently holds. -/
def storedAddrs (r : PtrRepo) : List Nat := r.users.map Prod.snd

/-- The value of the record stored under `id`, read through the heap. -/
def storedVal (r : PtrRepo) (h : Heap) (id : Int) : Option User :=
  (alookup r.users id).map (fun p => h.read p)

/-- The record value a caller obtains from `GetByID`, dereferencing the
returned pointer. -/
def getVal (r : PtrRepo) (h : Heap) (id : Int) : Option User :=
  match r.GetByID h id with
  | (.ok q, h') => some (h'.read q)
  | (.error _, _) => none

/-- Well-formedness: every address held by the map has been allocated. -/
def wf (r : PtrRepo) (h : Heap) : Prop :=
  ∀ p ∈ storedAddrs r, p < h.nextAddr

theorem getVal_eq_storedVal (r : PtrRepo) (h : Heap) (id : Int) :
    getVal r h id = storedVal r h id := by
  cases hl : alookup r.users id with
  | none => simp [getVal, GetByID, storedVal, hl]
  | some p =>
    unfold getVal GetByID storedVal
    rw [hl]
    show some ((h.alloc (h.read p)).2.read (h.alloc (h.read p)).1) = some (h.read p)
    rw [Heap.read_alloc_self]

/-- Frame rule: writing through an address the map does not hold never
changes any stored record. -/
theorem storedVal_write_notMem (r : PtrRepo) (h : Heap) (a : Nat) (v : User)
    (ha : a ∉ storedAddrs r) (id : Int) :
    storedVal r (h.write a v) id = storedVal r h id := by
  cases hl : alookup r.users id with
  | none => simp [storedVal, hl]
  | some p =>
    have hp : p ∈ storedAddrs r := mem_vals_of_alookup_some _ _ _ hl
    have hpa : p ≠ a := fun hcontra => ha (hcontra ▸ hp)
    simp only [storedVal, hl]
    show some ((h.write a v).read p) = some (h.read p)
    rw [Heap.read_write_ne _ _ _ _ hpa]

/-- Allocation never changes any stored record (in a well-formed state). -/
theorem storedVal_alloc (r : PtrRepo) (h : Heap) (v : User) (hwf : wf r h) (id : Int) :
    storedVal r (h.alloc v).2 id = storedVal r h id := by
  cases hl : alookup r.users id with
  | none => simp [storedVal, hl]
  | some p =>
    have hp : p ∈ storedAddrs r := mem_vals_of_alookup_some _ _ _ hl
    have hpa : p ≠ h.nextAddr := Nat.ne_of_lt (hwf p hp)
    simp only [storedVal, hl]
    show some ((h.alloc v).2.read p) = some (h.read p)
    rw [Heap.read_alloc_ne _ _ _ hpa]

end PtrRepo

/-- `List`'s copy loop: every returned address is fresh (at or above the
allocation frontier), the frontier only advances, one copy per entry,
pre-existing cells keep their contents, and the returned addresses are
pairwise distinct. -/
theorem listCopies_fresh (m : List (Int × Nat)) :
    ∀ h : Heap, (∀ p ∈ m.map Prod.snd, p < h.nextAddr) →
    (∀ q ∈ (PtrRepo.listCopies m h).1, h.nextAddr ≤ q) ∧
    h.nextAddr ≤ (PtrRepo.listCopies m h).2.nextAddr ∧
    (PtrRepo.listCopies m h).1.length = m.length ∧
    (∀ a, a < h.nextAddr → (PtrRepo.listCopies m h).2.read a = h.read a) ∧
    (PtrRepo.listCopies m h).1.Pairwise (· ≠ ·) := by
  induction m with
  | nil =>
    intro h _
    exact ⟨by simp [PtrRepo.listCopies], le_refl _, by simp [PtrRepo.listCopies],
      fun a _ => rfl, by simp [PtrRepo.listCopies]⟩
  | cons kp rest ih =>
    obtain ⟨k, p⟩ := kp
    intro h hm
    have hrw : PtrRepo.listCopies ((k, p) :: rest) h =
        (h.nextAddr :: (PtrRepo.listCopies rest (h.alloc (h.read p)).2).1,
          (PtrRepo.listCopies rest (h.alloc (h.read p)).2).2) := rfl
    have hm' : ∀ p' ∈ rest.map Prod.snd, p' < (h.alloc (h.read p)).2.nextAddr := by
      intro p' hp'
      have : p' < h.nextAddr := hm p' (by simp [hp'])
      have hnext : (h.alloc (h.read p)).2.nextAddr = h.nextAddr + 1 := rfl
      omega
    have ihr := ih (h.alloc (h.read p)).2 hm'
    have hnext : (h.alloc (h.read p)).2.nextAddr = h.nextAddr + 1 := rfl
    rw [hrw]
    dsimp only
    refine ⟨?_, ?_, ?_, ?_, ?_⟩
    · intro q hq
      rcases List.mem_cons.1 hq with hq | hq
      · omega
      · have := ihr.1 q hq
        omega
    · have := ihr.2.1
      omega
    · simp [ihr.2.2.1]
    · intro a ha
      have h1 := ihr.2.2.2.1 a (by omega)
      have h2 : (h.alloc (h.read p)).2.read a = h.read a :=
        Heap.read_alloc_ne _ _ _ (by omega)
      rw [h1, h2]
    · refine List.pairwise_cons.2 ⟨?_, ihr.2.2.2.2⟩
      intro q hq
      have := ihr.1 q hq
      omega

/-- C1 counterexample: the record returned by `Create` aliases the stored
record. After creating "Alice" (id 1), the caller mutates the returned
record's name to "Mallory"; a subsequent `GetByID 1` then returns
"Mallory", not the stored value at creation time — `Create` returned
address 0, and the map stores the same address 0 under id 1. -/
theorem create_alias_counterexample :
    (PtrRepo.new.Create Heap.empty (some ⟨0, "Alice", "a@x", 0, 0⟩) 5).1 = .ok 0 ∧
    alookup (PtrRepo.new.Create Heap.empty
      (some ⟨0, "Alice", "a@x", 0, 0⟩) 5).2.1.users 1 = some 0 ∧
    PtrRepo.getVal (PtrRepo.new.Create Heap.empty
        (some ⟨0, "Alice", "a@x", 0, 0⟩) 5).2.1
      (PtrRepo.new.Create Heap.empty (some ⟨0, "Alice", "a@x", 0, 0⟩) 5).2.2 1 =
      some ⟨1, "Alice", "a@x", 5, 5⟩ ∧
    PtrRepo.getVal (PtrRepo.new.Create Heap.empty
        (some ⟨0, "Alice", "a@x", 0, 0⟩) 5).2.1
      (((PtrRepo.new.Create Heap.empty
        (some ⟨0, "Alice", "a@x", 0, 0⟩) 5).2.2).write 0
          ⟨1, "Mallory", "a@x", 5, 5⟩) 1 =
      some ⟨1, "Mallory", "a@x", 5, 5⟩ := by
  refine ⟨rfl, rfl, rfl, rfl⟩

open PtrRepo in
/-- C1 (amended): records returned by `GetByID`, `List` and `Update` are
independent copies — each is a freshly allocated cell that does not alias
the store's map, and mutating it never changes the value any subsequent
`GetByID` returns; the record returned by `Create`, however, is the very
address the store keeps in its map (an alias, witnessed by the
counterexample), not an independent copy. -/
theorem defensive_copies_amended (r : PtrRepo) (h : Heap) (u v : User)
    (id id2 now : Int) :
    (r.Create h (some u) now =
      (.ok h.nextAddr,
        ⟨wrap64 (r.autoIncID + 1),
          ainsert r.users (wrap64 (r.autoIncID + 1)) h.nextAddr⟩,
        (h.alloc ⟨wrap64 (r.autoIncID + 1), u.Name, u.Email, now, now⟩).2) ∧
      alookup (ainsert r.users (wrap64 (r.autoIncID + 1)) h.nextAddr)
        (wrap64 (r.autoIncID + 1)) = some h.nextAddr) ∧
    (wf r h → ∀ p, alookup r.users id = some p →
      r.GetByID h id = (.ok h.nextAddr, (h.alloc (h.read p)).2) ∧
      h.nextAddr ∉ storedAddrs r ∧
      getVal r (((h.alloc (h.read p)).2).write h.nextAddr v) id2 =
        getVal r h id2) ∧
    (wf r h → ∀ p, alookup r.users u.ID = some p →
      r.Update h (some u) now =
        (.ok h.nextAddr, r,
          ((h.write p ⟨(h.read p).ID, u.Name, u.Email, (h.read p).CreatedAt, now⟩).alloc
            ⟨(h.read p).ID, u.Name, u.Email, (h.read p).CreatedAt, now⟩).2) ∧
      h.nextAddr ∉ storedAddrs r ∧
      (∀ hpost : Heap,
        hpost = ((h.write p ⟨(h.read p).ID, u.Name, u.Email, (h.read p).CreatedAt, now⟩).alloc
          ⟨(h.read p).ID, u.Name, u.Email, (h.read p).CreatedAt, now⟩).2 →
        getVal r (hpost.write h.nextAddr v) id2 = getVal r hpost id2)) ∧
    (wf r h → ∀ q ∈ (r.ListAll h).1, q ∉ storedAddrs r ∧
      getVal r (((r.ListAll h).2).write q v) id2 =
        getVal r ((r.ListAll h).2) id2) := by
  refine ⟨⟨rfl, alookup_ainsert _ _ _⟩, ?_, ?_, ?_⟩
  · intro hwf p hl
    have hfresh : h.nextAddr ∉ storedAddrs r := fun hmem =>
      absurd (hwf _ hmem) (lt_irrefl _)
    refine ⟨?_, hfresh, ?_⟩
    · simp only [GetByID, hl]
      rfl
    · calc getVal r (((h.alloc (h.read p)).2).write h.nextAddr v) id2
          = storedVal r (((h.alloc (h.read p)).2).write h.nextAddr v) id2 :=
            getVal_eq_storedVal _ _ _
        _ = storedVal r (h.alloc (h.read p)).2 id2 :=
            storedVal_write_notMem _ _ _ _ hfresh _
        _ = storedVal r h id2 := storedVal_alloc _ _ _ hwf _
        _ = getVal r h id2 := (getVal_eq_storedVal _ _ _).symm
  · intro hwf p hl
    have hfresh : h.nextAddr ∉ storedAddrs r := fun hmem =>
      absurd (hwf _ hmem) (lt_irrefl _)
    refine ⟨?_, hfresh, ?_⟩
    · simp only [Update, hl]
      rfl
    · intro hpost hpe
      calc getVal r (hpost.write h.nextAddr v) id2
          = storedVal r (hpost.write h.nextAddr v) id2 := getVal_eq_storedVal _ _ _
        _ = storedVal r hpost id2 := storedVal_write_notMem _ _ _ _ hfresh _
        _ = getVal r hpost id2 := (getVal_eq_storedVal _ _ _).symm
  · intro hwf q hq
    have hfr := listCopies_fresh r.users h hwf
    have hge : h.nextAddr ≤ q := hfr.1 q hq
    have hfresh : q ∉ storedAddrs r := fun hmem => by
      have := hwf q hmem
      omega
    refine ⟨hfresh, ?_⟩
    calc getVal r (((r.ListAll h).2).write q v) id2
        = storedVal r (((r.ListAll h).2).write q v) id2 := getVal_eq_storedVal _ _ _
      _ = storedVal r ((r.ListAll h).2) id2 := storedVal_write_notMem _ _ _ _ hfresh _
      _ = getVal r ((r.ListAll h).2) id2 := (getVal_eq_storedVal _ _ _).symm

/-- Witness for `defensive_copies_amended`: in a one-record store, mutating
the copy returned by `GetByID 1` leaves the value of a later `GetByID 1`
unchanged. -/
theorem defensive_copies_amended_witness :
    PtrRepo.getVal ⟨1, [(1, 0)]⟩
      ((((⟨1, [(0, ⟨1, "Alice", "a@x", 5, 5⟩)]⟩ : Heap).alloc
          ((⟨1, [(0, ⟨1, "Alice", "a@x", 5, 5⟩)]⟩ : Heap).read 0)).2).write 1
        ⟨1, "Mallory", "m@x", 9, 9⟩) 1 =
      PtrRepo.getVal ⟨1, [(1, 0)]⟩ ⟨1, [(0, ⟨1, "Alice", "a@x", 5, 5⟩)]⟩ 1 :=
  ((defensive_copies_amended ⟨1, [(1, 0)]⟩ ⟨1, [(0, ⟨1, "Alice", "a@x", 5, 5⟩)]⟩
      ⟨0, "X", "x@x", 0, 0⟩ ⟨1, "Mallory", "m@x", 9, 9⟩ 1 1 0).2.1
    (by intro p hp; simp [PtrRepo.storedAddrs] at hp; subst hp; decide) 0 rfl).2.2

open InMemoryUserRepository in
/-- C9: `List` never fails — it returns, for every store state, the list of
the currently stored record values (one per entry, in map iteration
order), the empty list on a fresh store; at pointer level each returned
element is a freshly allocated independent copy (pairwise-distinct
addresses, none aliasing the store), and listing leaves every
pre-existing heap cell unchanged. -/
theorem list_never_fails (r : InMemoryUserRepository) (pr : PtrRepo) (h : Heap) :
    r.ListAll = .ok (r.users.map Prod.snd) ∧
    (∃ us, r.ListAll = .ok us ∧ us.length = r.users.length) ∧
    InMemoryUserRepository.new.ListAll = .ok ([] : List User) ∧
    (PtrRepo.wf pr h →
      (pr.ListAll h).1.length = pr.users.length ∧
      (pr.ListAll h).1.Pairwise (· ≠ ·) ∧
      (∀ q ∈ (pr.ListAll h).1, q ∉ PtrRepo.storedAddrs pr) ∧
      (∀ a, a < h.nextAddr → ((pr.ListAll h).2).read a = h.read a)) := by
  refine ⟨rfl, ⟨r.users.map Prod.snd, rfl, by simp⟩, rfl, ?_⟩
  intro hwf
  have hfr := listCopies_fresh pr.users h hwf
  refine ⟨hfr.2.2.1, hfr.2.2.2.2, ?_, hfr.2.2.2.1⟩
  intro q hq hmem
  have h1 := hfr.1 q hq
  have h2 := hwf q hmem
  omega

/-- Witness for `list_never_fails` at a one-record store (pointer level)
and a two-record store (value level). -/
theorem list_never_fails_witness :
    (InMemoryUserRepository.mk 2
        [(1, ⟨1, "A", "a@x", 1, 1⟩), (2, ⟨2, "B", "b@x", 2, 2⟩)]).ListAll =
      .ok [⟨1, "A", "a@x", 1, 1⟩, ⟨2, "B", "b@x", 2, 2⟩] ∧
    (PtrRepo.ListAll ⟨1, [(1, 0)]⟩ ⟨1, [(0, ⟨1, "A", "a@x", 1, 1⟩)]⟩).1.length = 1 :=
  ⟨(list_never_fails
      (InMemoryUserRepository.mk 2
        [(1, ⟨1, "A", "a@x", 1, 1⟩), (2, ⟨2, "B", "b@x", 2, 2⟩)])
      ⟨0, []⟩ ⟨0, []⟩).1,
    ((list_never_fails InMemoryUserRepository.new ⟨1, [(1, 0)]⟩
      ⟨1, [(0, ⟨1, "A", "a@x", 1, 1⟩)]⟩).2.2.2
      (by intro p hp; simp [PtrRepo.storedAddrs] at hp; subst hp; decide)).1⟩
